import Mathlib

/-
  Verification of the recline/cliche interactive command shell runtime.

  The Python sources are shallowly embedded: Python strings become lists of
  characters, Python dicts become association lists, machine integers become
  Lean integers, and functions that raise exceptions return Except values.
  Each definition carries a reference to the source location it models.
-/

namespace Recline

/-- Python strings are modelled as lists of characters. -/
abbrev Str := List Char

/-- Converts a Lean string literal into the character-list model. -/
def pystr (s : String) : Str := s.data

/-- The whitespace characters recognised by Python's str.strip and str.split. -/
def isPySpace (c : Char) : Bool :=
  c = ' ' || c = '\t' || c = '\n' || c = '\r' || c = '\x0b' || c = '\x0c'

/-- Python `s.strip()`: remove leading and trailing whitespace. -/
def pyStrip (s : Str) : Str :=
  ((s.dropWhile isPySpace).reverse.dropWhile isPySpace).reverse

/-- Python `s.rstrip()`: remove trailing whitespace only.  Used to state the
spec text of claim C1, which speaks of trimming trailing whitespace. -/
def pyRstrip (s : Str) : Str :=
  (s.reverse.dropWhile isPySpace).reverse

/-- Python `text.split(sep)` for a one-character separator: split on every
occurrence, keeping empty segments, e.g. `"".split(';') = [""]` and
`";".split(';') = ["", ""]`. -/
def splitChar (sep : Char) : Str → List Str
  | [] => [[]]
  | c :: rest =>
    match splitChar sep rest with
    | [] => [[]]
    | t :: ts => if c = sep then [] :: t :: ts else (c :: t) :: ts

/-- Python `text.split(sep)` for a two-character separator `[a, b]`:
split on every non-overlapping occurrence, scanning left to right. -/
def splitStr2 (a b : Char) : Str → List Str
  | [] => [[]]
  | [c] => [[c]]
  | c :: d :: rest =>
    if c = a && d = b then [] :: splitStr2 a b rest
    else
      match splitStr2 a b (d :: rest) with
      | [] => [[]]
      | t :: ts => (c :: t) :: ts

/-- Python `x in s` for a one-character needle. -/
def hasChar (x : Char) : Str → Bool
  | [] => false
  | c :: rest => c = x || hasChar x rest

/-- Python `x in s` for a two-character needle `[a, b]`. -/
def has2 (a b : Char) : Str → Bool
  | [] => false
  | [_] => false
  | c :: d :: rest => (c = a && d = b) || has2 a b (d :: rest)

/-- Locates the first occurrence of `pat` in a string, returning the part
before it and the part after it.  Helper for Python `s.replace(pat, "", 1)`. -/
def breakOn (pat : Str) : Str → Option (Str × Str)
  | [] => if pat.isPrefixOf ([] : Str) then some ([], []) else none
  | c :: rest =>
    if pat.isPrefixOf (c :: rest) then some ([], (c :: rest).drop pat.length)
    else
      match breakOn pat rest with
      | some (pre, post) => some (c :: pre, post)
      | none => none

/-- Python `s.replace(pat, "", 1)`: delete the first occurrence of `pat`,
leaving `s` unchanged when `pat` does not occur. -/
def replaceFirst (pat s : Str) : Str :=
  match breakOn pat s with
  | some (pre, post) => pre ++ post
  | none => s

/-- Tokenising worker for `pyLex`: accumulates the current word in reverse. -/
def pyLexGo : Str → Str → List Str
  | [], acc => if acc = [] then [] else [acc.reverse]
  | c :: rest, acc =>
    if isPySpace c then
      if acc = [] then pyLexGo rest [] else acc.reverse :: pyLexGo rest []
    else pyLexGo rest (c :: acc)

/-- Models Python `shlex.split(s)` for input without quote or escape
characters: the whitespace-delimited tokens of `s`, with no empty tokens. -/
def pyLex (s : Str) : List Str := pyLexGo s []

/-- The word-by-word comparison block of `CommandCompleter.get_command_name`
(completer.py lines 111-119): a candidate name survives when each of its
words matches the typed word at the same position, comparing only up to the
number of words the user typed (`continue` past that, `break` on mismatch). -/
def survives (pieces : List Str) (cand : Str) : Bool :=
  ((splitChar ' ' cand).zip pieces).all fun pr => pr.1 == pr.2

/-- The `while i > 0` loop of `CommandCompleter.get_command_name`
(completer.py lines 93-125), with the counter as explicit recursion.  It
returns the pair `(command_name, possible_match)` set right before `break`,
or `none` when the loop runs out.  When a prefix of the first `i` words
matches exactly one registered name the loop stops (`break`) whether or not
the match equals the prefix; with more than one match it keeps only the
word-wise survivors, stopping if exactly one remains; otherwise `i` drops. -/
def gcnLoop (pieces : List Str) (options : List Str) : Nat → Option (Str × Str)
  | 0 => none
  | i + 1 =>
    let cand := List.intercalate [' '] (pieces.take (i + 1))
    let possibles := options.filter fun x => cand.isPrefixOf x
    match possibles with
    | [only] => some (cand, only)
    | _ :: _ :: _ =>
      match possibles.filter (survives pieces) with
      | [s] => some (s, s)
      | _ => gcnLoop pieces options i
    | [] => gcnLoop pieces options i

/-- `CommandCompleter.get_command_name(text, options, exact)` (completer.py
lines 80-129).  After the loop, the result is returned only when
`command_name == possible_match.strip()`. -/
def get_command_name (text : Str) (options : List Str) (ex : Bool) : Option Str :=
  if ex ∧ text ∈ options then some text
  else
    let pieces := splitChar ' ' text
    match gcnLoop pieces options pieces.length with
    | some (cname, pm) => if cname = pyStrip pm then some cname else none
    | none => none

/-- The resolver loop exactly as claim C1 words it (spec section 4.2): when
exactly one registered name starts with the candidate prefix, that name is
returned only if it equals the candidate after trimming trailing whitespace,
and otherwise -- including that unique-but-unequal case -- the loop
continues with a shorter prefix. -/
def rsLoop (pieces : List Str) (names : List Str) : Nat → Option Str
  | 0 => none
  | i + 1 =>
    let cand := List.intercalate [' '] (pieces.take (i + 1))
    let possibles := names.filter fun x => cand.isPrefixOf x
    match possibles with
    | [only] => if pyRstrip only = cand then some only else rsLoop pieces names i
    | _ :: _ :: _ =>
      match possibles.filter (survives pieces) with
      | [s] => some s
      | _ => rsLoop pieces names i
    | [] => rsLoop pieces names i

/-- `resolve(text, names, exact)` as claim C1 states it. -/
def resolveSpec (text : Str) (names : List Str) (ex : Bool) : Option Str :=
  if ex ∧ text ∈ names then some text
  else
    let pieces := splitChar ' ' text
    rsLoop pieces names pieces.length

/-- The resolver loop as the code actually behaves (the amended claim C1):
on a unique prefix match the loop stops for good -- the candidate prefix is
returned when the match equals it after stripping surrounding whitespace and
the result is absent otherwise; shorter prefixes are not retried. -/
def raLoop (pieces : List Str) (names : List Str) : Nat → Option Str
  | 0 => none
  | i + 1 =>
    let cand := List.intercalate [' '] (pieces.take (i + 1))
    let possibles := names.filter fun x => cand.isPrefixOf x
    match possibles with
    | [only] => if cand = pyStrip only then some cand else none
    | _ :: _ :: _ =>
      match possibles.filter (survives pieces) with
      | [s] => if s = pyStrip s then some s else none
      | _ => raLoop pieces names i
    | [] => raLoop pieces names i

/-- `resolve(text, names, exact)` as amended: identical to the claim except
that a unique prefix match always ends the search. -/
def resolveAmended (text : Str) (names : List Str) (ex : Bool) : Option Str :=
  if ex ∧ text ∈ names then some text
  else
    let pieces := splitChar ' ' text
    raLoop pieces names pieces.length

/-! ## Shell interpreter (shell.py `execute`, lines 111-137)

`execute` recursively splits the line on `;`, then `&&`, then `||`, and runs
simple commands through `run_one_command`.  The runner is abstracted as a
state transformer `f : Str → σ → Int × σ` standing for `run_one_command`
over the shell's mutable state; exceptions that abort the whole line (the
program-exit path) are outside this exit-code model.  The Python recursion
is modelled with a fuel counter: splitting removes the separator it splits
on, so the recursion depth never exceeds three, which `execute_fuel_irrel`
below proves by showing every fuel of at least three computes the same
function. -/

/-- The `for command in current_input.split(';')` loop (shell.py lines
117-118): every segment is evaluated, each result overwriting the last. -/
def runSeq {σ : Type _} (g : Str → σ → Int × σ) : List Str → Int × σ → Int × σ
  | [], acc => acc
  | seg :: rest, (_, st) => runSeq g rest (g seg st)

/-- The `&&` loop (shell.py lines 122-125): evaluate left to right and
`break` as soon as a result is greater than zero. -/
def runAnd {σ : Type _} (g : Str → σ → Int × σ) : List Str → Int × σ → Int × σ
  | [], acc => acc
  | seg :: rest, (_, st) =>
    let r := g seg st
    if 0 < r.1 then r else runAnd g rest r

/-- The `||` loop (shell.py lines 129-132): evaluate left to right and
`break` as soon as a result equals zero. -/
def runOr {σ : Type _} (g : Str → σ → Int × σ) : List Str → Int × σ → Int × σ
  | [], acc => acc
  | seg :: rest, (_, st) =>
    let r := g seg st
    if r.1 = 0 then r else runOr g rest r

/-- `execute(current_input)` (shell.py lines 111-137) with explicit fuel for
the recursion; the simple-command case strips the segment before calling the
runner (`run_one_command(current_input.strip())`). -/
def executeF {σ : Type _} (f : Str → σ → Int × σ) : Nat → Str → σ → Int × σ
  | 0, s, st => f (pyStrip s) st
  | fuel + 1, s, st =>
    if hasChar ';' s then runSeq (executeF f fuel) (splitChar ';' s) (0, st)
    else if has2 '&' '&' s then runAnd (executeF f fuel) (splitStr2 '&' '&' s) (0, st)
    else if has2 '|' '|' s then runOr (executeF f fuel) (splitStr2 '|' '|' s) (0, st)
    else f (pyStrip s) st

/-- `execute`.  Fuel three is exact: the cascade is `;` outermost, then
`&&`, then `||`, then a simple command, and each split yields segments free
of the separator just split on (`execute_fuel_irrel`). -/
def execute {σ : Type _} (f : Str → σ → Int × σ) (s : Str) (st : σ) : Int × σ :=
  executeF f 3 s st

/-! ### Structure of the split results -/

theorem splitChar_ne_nil (sep : Char) (s : Str) : splitChar sep s ≠ [] := by
  induction s with
  | nil => simp [splitChar]
  | cons c rest ih =>
    simp only [splitChar]
    split
    · simp
    · split <;> simp

/-- The first segment of a character split is a prefix of the input and the
remaining segments are infixes of it. -/
theorem splitChar_head_tail (sep : Char) (s : Str) :
    ∃ t ts, splitChar sep s = t :: ts ∧ t <+: s ∧ ∀ u ∈ ts, u <:+: s := by
  induction s with
  | nil => exact ⟨[], [], rfl, List.nil_prefix, by simp⟩
  | cons c rest ih =>
    obtain ⟨t, ts, heq, hpre, hts⟩ := ih
    by_cases hc : c = sep
    · refine ⟨[], t :: ts, ?_, List.nil_prefix, ?_⟩
      · simp [splitChar, heq, hc]
      · intro u hu
        rcases List.mem_cons.mp hu with rfl | hu
        · exact (hpre.isInfix).trans (List.infix_cons (List.infix_refl rest))
        · exact (hts u hu).trans (List.infix_cons (List.infix_refl rest))
    · refine ⟨c :: t, ts, ?_, ?_, ?_⟩
      · simp [splitChar, heq, hc]
      · exact List.cons_prefix_cons.mpr ⟨rfl, hpre⟩
      · intro u hu
        exact (hts u hu).trans (List.infix_cons (List.infix_refl rest))

/-- Every segment of a character split is an infix of the input. -/
theorem splitChar_seg_sub (sep : Char) (s : Str) :
    ∀ u ∈ splitChar sep s, u <:+: s := by
  obtain ⟨t, ts, heq, hpre, hts⟩ := splitChar_head_tail sep s
  intro u hu
  rw [heq] at hu
  rcases List.mem_cons.mp hu with rfl | hu
  · exact hpre.isInfix
  · exact hts u hu

/-- No segment of a character split contains the separator it split on. -/
theorem splitChar_not_hasChar (sep : Char) (s : Str) :
    ∀ u ∈ splitChar sep s, hasChar sep u = false := by
  induction s with
  | nil =>
    intro u hu
    simp [splitChar] at hu
    simp [hu, hasChar]
  | cons c rest ih =>
    intro u hu
    simp only [splitChar] at hu
    cases h : splitChar sep rest with
    | nil => exact absurd h (splitChar_ne_nil sep rest)
    | cons t ts =>
      rw [h] at hu
      by_cases hc : c = sep
      · simp only [hc, if_pos rfl] at hu
        rcases List.mem_cons.mp hu with rfl | hu
        · simp [hasChar]
        · exact ih u (by rw [h]; exact hu)
      · simp only [if_neg hc] at hu
        rcases List.mem_cons.mp hu with rfl | hu
        · have ht : hasChar sep t = false := ih t (by rw [h]; exact List.mem_cons_self t ts)
          simp [hasChar, hc, ht]
        · exact ih u (by rw [h]; exact List.mem_cons_of_mem t hu)

theorem splitStr2_ne_nil (a b : Char) (s : Str) : splitStr2 a b s ≠ [] := by
  match s with
  | [] => simp [splitStr2]
  | [c] => simp [splitStr2]
  | c :: d :: rest =>
    simp only [splitStr2]
    split
    · simp
    · split
      · simp
      · simp

/-- Structure of a two-character split: the first segment is a prefix of the
input, later segments are infixes, and no segment contains the separator. -/
theorem splitStr2_head_tail (a b : Char) :
    ∀ (n : Nat) (s : Str), s.length ≤ n →
      ∃ t ts, splitStr2 a b s = t :: ts ∧ t <+: s ∧ (∀ u ∈ ts, u <:+: s) ∧
        has2 a b t = false ∧ ∀ u ∈ ts, has2 a b u = false := by
  intro n
  induction n with
  | zero =>
    intro s hs
    have hnil : s = [] := List.length_eq_zero.mp (Nat.le_zero.mp hs)
    subst hnil
    exact ⟨[], [], rfl, List.nil_prefix, by simp, rfl, by simp⟩
  | succ n ih =>
    intro s hs
    match s with
    | [] => exact ⟨[], [], rfl, List.nil_prefix, by simp, rfl, by simp⟩
    | [c] => exact ⟨[c], [], rfl, List.prefix_refl _, by simp, rfl, by simp⟩
    | c :: d :: rest =>
      have hlen1 : rest.length ≤ n := by
        have := hs; simp only [List.length_cons] at this; omega
      have hlen2 : (d :: rest).length ≤ n := by
        have := hs; simp only [List.length_cons] at this ⊢; omega
      by_cases hcd : (c = a && d = b) = true
      · obtain ⟨t, ts, heq, hpre, hts, h2t, h2ts⟩ := ih rest hlen1
        refine ⟨[], t :: ts, ?_, List.nil_prefix, ?_, rfl, ?_⟩
        · simp [splitStr2, hcd, heq]
        · intro u hu
          rcases List.mem_cons.mp hu with rfl | hu
          · exact List.infix_cons (List.infix_cons hpre.isInfix)
          · exact List.infix_cons (List.infix_cons (hts u hu))
        · intro u hu
          rcases List.mem_cons.mp hu with rfl | hu
          · exact h2t
          · exact h2ts u hu
      · have hcd' : (c = a && d = b) = false := by simpa using hcd
        obtain ⟨t, ts, heq, hpre, hts, h2t, h2ts⟩ := ih (d :: rest) hlen2
        refine ⟨c :: t, ts, ?_, List.cons_prefix_cons.mpr ⟨rfl, hpre⟩, ?_, ?_, h2ts⟩
        · simp [splitStr2, hcd', heq]
        · intro u hu
          exact List.infix_cons (hts u hu)
        · match t, hpre with
          | [], _ => simp [has2]
          | e :: t2, hpre =>
            obtain ⟨hed, _⟩ := List.cons_prefix_cons.mp hpre
            subst hed
            simp only [has2] at h2t ⊢
            simp [hcd', h2t]

/-- Every segment of a two-character split is an infix of the input. -/
theorem splitStr2_seg_sub (a b : Char) (s : Str) :
    ∀ u ∈ splitStr2 a b s, u <:+: s := by
  obtain ⟨t, ts, heq, hpre, hts, -, -⟩ :=
    splitStr2_head_tail a b s.length s (Nat.le_refl _)
  intro u hu
  rw [heq] at hu
  rcases List.mem_cons.mp hu with rfl | hu
  · exact hpre.isInfix
  · exact hts u hu

/-- No segment of a two-character split contains the separator pair. -/
theorem splitStr2_not_has2 (a b : Char) (s : Str) :
    ∀ u ∈ splitStr2 a b s, has2 a b u = false := by
  obtain ⟨t, ts, heq, -, -, h2t, h2ts⟩ :=
    splitStr2_head_tail a b s.length s (Nat.le_refl _)
  intro u hu
  rw [heq] at hu
  rcases List.mem_cons.mp hu with rfl | hu
  · exact h2t
  · exact h2ts u hu

theorem hasChar_iff_mem (x : Char) (l : Str) : hasChar x l = true ↔ x ∈ l := by
  induction l with
  | nil => simp [hasChar]
  | cons c rest ih =>
    simp only [hasChar, Bool.or_eq_true, decide_eq_true_eq, ih, List.mem_cons]
    exact or_congr eq_comm Iff.rfl

/-- An infix of a string free of a character is itself free of it. -/
theorem hasChar_false_of_sub {x : Char} {u s : Str} (h : u <:+: s)
    (hs : hasChar x s = false) : hasChar x u = false := by
  by_contra hu
  have hu' : hasChar x u = true := by
    cases hmem : hasChar x u
    · exact absurd hmem hu
    · rfl
  have : x ∈ s := h.subset ((hasChar_iff_mem x u).mp hu')
  rw [(hasChar_iff_mem x s).mpr this] at hs
  exact Bool.true_eq_false.mp hs

/-- `has2 a b l` holds exactly when the two-character pattern occurs in `l`. -/
theorem has2_iff_pattern (a b : Char) :
    ∀ (n : Nat) (l : Str), l.length ≤ n → (has2 a b l = true ↔ [a, b] <:+: l) := by
  intro n
  induction n with
  | zero =>
    intro l hl
    have hnil : l = [] := List.length_eq_zero.mp (Nat.le_zero.mp hl)
    subst hnil
    simp [has2]
  | succ n ih =>
    intro l hl
    match l with
    | [] => simp [has2]
    | [c] =>
      simp only [has2, Bool.false_eq_true, false_iff]
      intro h
      have := h.sublist.length_le
      simp at this
    | c :: d :: rest =>
      have hlen : (d :: rest).length ≤ n := by
        have := hl; simp only [List.length_cons] at this ⊢; omega
      constructor
      · intro h
        simp only [has2, Bool.or_eq_true, Bool.and_eq_true, decide_eq_true_eq] at h
        rcases h with ⟨rfl, rfl⟩ | h
        · exact ⟨[], c :: d :: rest |>.drop 2, by simp⟩
        · exact List.infix_cons ((ih (d :: rest) hlen).mp h)
      · intro h
        rcases List.infix_cons_iff.mp h with h | h
        · obtain ⟨rfl, h2⟩ := List.cons_prefix_cons.mp h
          obtain ⟨rfl, -⟩ := List.cons_prefix_cons.mp h2
          simp [has2]
        · have := (ih (d :: rest) hlen).mpr h
          simp [has2, this]

/-- An infix of a string free of a two-character pattern is itself free. -/
theorem has2_false_of_sub {a b : Char} {u s : Str} (h : u <:+: s)
    (hs : has2 a b s = false) : has2 a b u = false := by
  by_contra hu
  have hu' : has2 a b u = true := by
    cases hmem : has2 a b u
    · exact absurd hmem hu
    · rfl
  have : [a, b] <:+: s :=
    ((has2_iff_pattern a b u.length u (Nat.le_refl _)).mp hu').trans h
  rw [(has2_iff_pattern a b s.length s (Nat.le_refl _)).mpr this] at hs
  exact Bool.true_eq_false.mp hs

/-! ### Fuel irrelevance for `execute` -/

theorem runSeq_congr {σ : Type _} {g1 g2 : Str → σ → Int × σ} :
    ∀ (l : List Str), (∀ seg ∈ l, ∀ st : σ, g1 seg st = g2 seg st) →
      ∀ acc, runSeq g1 l acc = runSeq g2 l acc := by
  intro l
  induction l with
  | nil => intro _ acc; rfl
  | cons seg rest ih =>
    intro h acc
    obtain ⟨r, st⟩ := acc
    simp only [runSeq]
    rw [h seg (List.mem_cons_self seg rest) st]
    exact ih (fun u hu => h u (List.mem_cons_of_mem seg hu)) _

theorem runAnd_congr {σ : Type _} {g1 g2 : Str → σ → Int × σ} :
    ∀ (l : List Str), (∀ seg ∈ l, ∀ st : σ, g1 seg st = g2 seg st) →
      ∀ acc, runAnd g1 l acc = runAnd g2 l acc := by
  intro l
  induction l with
  | nil => intro _ acc; rfl
  | cons seg rest ih =>
    intro h acc
    obtain ⟨r, st⟩ := acc
    simp only [runAnd]
    rw [h seg (List.mem_cons_self seg rest) st]
    split
    · rfl
    · exact ih (fun u hu => h u (List.mem_cons_of_mem seg hu)) _

theorem runOr_congr {σ : Type _} {g1 g2 : Str → σ → Int × σ} :
    ∀ (l : List Str), (∀ seg ∈ l, ∀ st : σ, g1 seg st = g2 seg st) →
      ∀ acc, runOr g1 l acc = runOr g2 l acc := by
  intro l
  induction l with
  | nil => intro _ acc; rfl
  | cons seg rest ih =>
    intro h acc
    obtain ⟨r, st⟩ := acc
    simp only [runOr]
    rw [h seg (List.mem_cons_self seg rest) st]
    split
    · rfl
    · exact ih (fun u hu => h u (List.mem_cons_of_mem seg hu)) _

/-- A segment with no control operator is a simple command at any fuel. -/
theorem executeF_no_ops {σ : Type _} (f : Str → σ → Int × σ) (s : Str)
    (h1 : hasChar ';' s = false) (h2 : has2 '&' '&' s = false)
    (h3 : has2 '|' '|' s = false) :
    ∀ (n : Nat) (st : σ), executeF f n s st = f (pyStrip s) st := by
  intro n st
  cases n with
  | zero => rfl
  | succ n => simp [executeF, h1, h2, h3]

/-- With no `;` and no `&&` in the input, one unit of fuel is enough. -/
theorem executeF_fuel1 {σ : Type _} (f : Str → σ → Int × σ) (s : Str)
    (h1 : hasChar ';' s = false) (h2 : has2 '&' '&' s = false) :
    ∀ (n : Nat) (st : σ), executeF f (n + 1) s st = executeF f 1 s st := by
  intro n st
  by_cases h3 : has2 '|' '|' s = true
  · simp only [executeF, h1, h2, h3, Bool.false_eq_true, if_false, if_true]
    refine runOr_congr _ ?_ _
    intro seg hseg st2
    have hinf : seg <:+: s := splitStr2_seg_sub '|' '|' s seg hseg
    have g1 : hasChar ';' seg = false := hasChar_false_of_sub hinf h1
    have g2 : has2 '&' '&' seg = false := has2_false_of_sub hinf h2
    have g3 : has2 '|' '|' seg = false := splitStr2_not_has2 '|' '|' s seg hseg
    rw [executeF_no_ops f seg g1 g2 g3 n st2]
  · have h3' : has2 '|' '|' s = false := by simpa using h3
    rw [executeF_no_ops f s h1 h2 h3' (n + 1) st, executeF_no_ops f s h1 h2 h3' 1 st]

/-- With no `;` in the input, two units of fuel are enough. -/
theorem executeF_fuel2 {σ : Type _} (f : Str → σ → Int × σ) (s : Str)
    (h1 : hasChar ';' s = false) :
    ∀ (n : Nat) (st : σ), executeF f (n + 2) s st = executeF f 2 s st := by
  intro n st
  by_cases h2 : has2 '&' '&' s = true
  · show executeF f (n + 1 + 1) s st = executeF f (1 + 1) s st
    simp only [executeF, h1, h2, Bool.false_eq_true, if_false, if_true]
    refine runAnd_congr _ ?_ _
    intro seg hseg st2
    have hinf : seg <:+: s := splitStr2_seg_sub '&' '&' s seg hseg
    have g1 : hasChar ';' seg = false := hasChar_false_of_sub hinf h1
    have g2 : has2 '&' '&' seg = false := splitStr2_not_has2 '&' '&' s seg hseg
    exact executeF_fuel1 f seg g1 g2 n st2
  · have h2' : has2 '&' '&' s = false := by simpa using h2
    rw [show n + 2 = n + 1 + 1 from rfl, executeF_fuel1 f s h1 h2' (n + 1) st]
    rw [show (2 : Nat) = 1 + 1 from rfl, executeF_fuel1 f s h1 h2' 1 st]

/-- Any fuel of at least three computes `execute`: the Python recursion
depth is bounded by the operator cascade. -/
theorem execute_fuel_irrel {σ : Type _} (f : Str → σ → Int × σ) (s : Str) :
    ∀ (n : Nat) (st : σ), executeF f (n + 3) s st = execute f s st := by
  intro n st
  show executeF f (n + 2 + 1) s st = executeF f (2 + 1) s st
  by_cases h1 : hasChar ';' s = true
  · simp only [executeF, h1, if_true]
    refine runSeq_congr _ ?_ _
    intro seg hseg st2
    have g1 : hasChar ';' seg = false := splitChar_not_hasChar ';' s seg hseg
    exact executeF_fuel2 f seg g1 n st2
  · have h1' : hasChar ';' s = false := by simpa using h1
    rw [show n + 2 + 1 = n + 1 + 2 from rfl, executeF_fuel2 f s h1' (n + 1) st]
    rw [show (2 : Nat) + 1 = 1 + 2 from rfl, executeF_fuel2 f s h1' 1 st]

/-! ### Fold characterisations used by claims C2 and C3 -/

/-- The state after a `;` run is the unconditional composition of every
segment's state effect; no exit code is consulted along the way. -/
theorem runSeq_snd {σ : Type _} (g : Str → σ → Int × σ) :
    ∀ (l : List Str) (acc : Int × σ),
      (runSeq g l acc).2 = l.foldl (fun st seg => (g seg st).2) acc.2 := by
  intro l
  induction l with
  | nil => intro acc; rfl
  | cons seg rest ih =>
    intro acc
    obtain ⟨r, st⟩ := acc
    simp only [runSeq, List.foldl_cons]
    exact ih (g seg st)

/-- The exit code of a `;` run is the exit code of the final segment,
evaluated in the state produced by all earlier segments. -/
theorem runSeq_getLast {σ : Type _} (g : Str → σ → Int × σ) :
    ∀ (l : List Str), l ≠ [] → ∀ (acc : Int × σ),
      (runSeq g l acc).1 =
        (g (l.getLastD [])
          (l.dropLast.foldl (fun st seg => (g seg st).2) acc.2)).1 := by
  intro l
  induction l with
  | nil => intro h; exact absurd rfl h
  | cons seg rest ih =>
    intro _ acc
    obtain ⟨r, st⟩ := acc
    cases rest with
    | nil => simp [runSeq]
    | cons seg2 rest2 =>
      have hne : seg2 :: rest2 ≠ [] := by simp
      have hstep : runSeq g (seg :: seg2 :: rest2) (r, st) =
          runSeq g (seg2 :: rest2) (g seg st) := rfl
      rw [hstep, ih hne (g seg st)]
      simp [List.getLastD_cons, List.dropLast_cons₂]

/-! ## Dictionaries

Python dicts are modelled as association lists in insertion order:
assignment to an existing key updates it in place, assignment to a new key
appends, and `del`/`pop` remove the entry.  `dictErase` is total; the code
only deletes keys it has looked up, which the theorems track through
membership hypotheses. -/

def dictFind {α β : Type _} [DecidableEq α] (m : List (α × β)) (k : α) : Option β :=
  (m.find? fun e => e.1 = k).map fun e => e.2

def dictMem {α β : Type _} [DecidableEq α] (m : List (α × β)) (k : α) : Bool :=
  (dictFind m k).isSome

def dictInsert {α β : Type _} [DecidableEq α] (m : List (α × β)) (k : α) (v : β) :
    List (α × β) :=
  if dictMem m k then m.map fun e => if e.1 = k then (k, v) else e
  else m ++ [(k, v)]

def dictErase {α β : Type _} [DecidableEq α] (m : List (α × β)) (k : α) :
    List (α × β) :=
  m.filter fun e => e.1 ≠ k

theorem dictFind_insert_self {α β : Type _} [DecidableEq α]
    (m : List (α × β)) (k : α) (v : β) : dictFind (dictInsert m k v) k = some v := by
  unfold dictInsert
  split
  · induction m with
    | nil =>
      rename_i hmem
      simp [dictMem, dictFind] at hmem
    | cons e rest ih =>
      by_cases he : e.1 = k
      · simp [dictFind, he]
      · rename_i hmem
        have hmem2 : dictMem rest k = true := by
          simp only [dictMem, dictFind, List.find?_cons] at hmem ⊢
          rw [decide_eq_false he] at hmem
          exact hmem
        simp only [List.map_cons, if_neg he]
        simp only [dictFind, List.find?_cons, decide_eq_false he]
        exact ih hmem2
  · induction m with
    | nil => simp [dictFind]
    | cons e rest ih =>
      rename_i hmem
      have he : e.1 ≠ k := by
        intro hk
        simp [dictMem, dictFind, List.find?_cons, hk] at hmem
      have hmem2 : ¬dictMem rest k = true := by
        simp only [dictMem, dictFind, List.find?_cons, decide_eq_false he] at hmem ⊢
        exact hmem
      simp only [List.cons_append]
      simp only [dictFind, List.find?_cons, decide_eq_false he] at ih ⊢
      exact ih hmem2

theorem dictMem_erase_self {α β : Type _} [DecidableEq α]
    (m : List (α × β)) (k : α) : dictMem (dictErase m k) k = false := by
  induction m with
  | nil => simp [dictErase, dictMem, dictFind]
  | cons e rest ih =>
    by_cases he : e.1 = k
    · simpa [dictErase, he] using ih
    · simp only [dictErase, List.filter_cons] at ih ⊢
      simp only [decide_eq_true_eq]
      rw [if_pos (by simpa using he)]
      simp only [dictMem, dictFind, List.find?_cons, decide_eq_false he] at ih ⊢
      exact ih

/-! ## Job supervisor (async_command.py, recline/__init__.py)

An `AsyncCommand` object is modelled by its observable fields.  The job
table `recline.JOBS` stores the object itself under its id; object mutation
is modelled by updating both the local value and, where the table still
holds the job, its entry.  Worker-thread execution, the asyncio loop,
signal handlers and terminal echo switching are operating-system
collaborators outside the model; the polling wait of `foreground` is
represented by its exit condition (`_wait` cleared or thread dead) and the
flag state it observes. -/

structure Job where
  pid : Nat
  result : Option Int
  exception : Option Int
  wait : Bool
  killed : Bool
  alive : Bool
deriving DecidableEq

abbrev Jobs := List (Nat × Job)

/-- The module-level supervisor state: `recline.JOBS` and
`recline.NEXT_JOB_PID` (recline/__init__.py lines 11-12). -/
structure SupState where
  jobs : Jobs
  nextPid : Nat
deriving DecidableEq

/-- Process start: no jobs, `NEXT_JOB_PID = 1`. -/
def initSup : SupState := { jobs := [], nextPid := 1 }

/-- The fields `AsyncCommand.__init__` gives a new job (async_command.py
lines 47-64): no result, no exception, waiting, not killed; the thread has
not been started yet. -/
def newJob (pid : Nat) : Job :=
  { pid := pid, result := none, exception := none,
    wait := true, killed := false, alive := false }

/-- `AsyncCommand.__init__` lines 53-55: take the next pid, register the job
in the shared table, and advance the process-wide counter. -/
def spawnJob (st : SupState) : Job × SupState :=
  let j := newJob st.nextPid
  (j, { jobs := dictInsert st.jobs j.pid j, nextPid := st.nextPid + 1 })

/-- `AsyncCommand.stop(dont_delete)` (async_command.py lines 81-89): cancel
the task, mark the job killed, and delete it from the table unless
`dont_delete` is set.  The table aliases the object, so a surviving entry is
updated too. -/
def stopJob (jobs : Jobs) (j : Job) (dontDelete : Bool) : Job × Jobs :=
  let j2 := { j with killed := true }
  let jobs2 := jobs.map fun e => if e.1 = j.pid then (j.pid, j2) else e
  if dontDelete then (j2, jobs2) else (j2, dictErase jobs2 j.pid)

/-- `AsyncCommand.background` (async_command.py lines 91-96): clear `_wait`
so the foreground poll releases the caller; the job stays registered. -/
def backgroundJob (j : Job) : Job := { j with wait := false }

/-- The outcome of `AsyncCommand.foreground`. -/
inductive FgOut where
  | completed (v : Option Int)
  | cancelled (pid : Nat)
  | backgrounded (pid : Nat)
  | failed (e : Int)
  | tableMiss
deriving DecidableEq

/-- `AsyncCommand.foreground` (async_command.py lines 98-116) after its
polling loop has exited (`j.wait = false` or `j.alive = false`): raise
`CommandCancelled` if the job was killed, `CommandBackgrounded` if `_wait`
was cleared, re-raise a captured exception after deleting the job, else pop
the job and return its recorded result.  `tableMiss` stands for the
`KeyError` Python would raise if the popped entry were absent; the theorems
show it cannot happen when the table holds the job. -/
def foregroundDispatch (jobs : Jobs) (j : Job) : FgOut × Jobs :=
  if j.killed then (.cancelled j.pid, jobs)
  else if j.wait = false then (.backgrounded j.pid, jobs)
  else
    match j.exception with
    | some e => (.failed e, dictErase jobs j.pid)
    | none =>
      match dictFind jobs j.pid with
      | some jj => (.completed jj.result, dictErase jobs j.pid)
      | none => (.tableMiss, jobs)

/-- `n` consecutive spawns, returning the jobs in spawn order. -/
def spawnSeq : Nat → SupState → List Job × SupState
  | 0, st => ([], st)
  | n + 1, st =>
    let p := spawnJob st
    let q := spawnSeq n p.2
    (p.1 :: q.1, q.2)

theorem spawnSeq_pids (n : Nat) :
    ∀ st : SupState, ((spawnSeq n st).1.map Job.pid) = List.range' st.nextPid n := by
  induction n with
  | zero => intro st; rfl
  | succ n ih =>
    intro st
    simp only [spawnSeq, List.map_cons, spawnJob, newJob, List.range']
    rw [ih]

/-! ## Registration (cli_command.py `_register`, lines 375-405)

Descriptors are abstracted to a numeric handler identity; `CLICommand`
construction (docstring parsing, argparse setup) is a collaborator.  The
module-level slots `commands.START_COMMAND` / `commands.EXIT_COMMAND` and
the dict `commands.COMMAND_REGISTRY` form the registration state.  A raised
`RuntimeError` is modelled as an error value returned alongside the
untouched state. -/

structure RegEntry where
  funcId : Nat
  name : Str
  isAlias : Bool
deriving DecidableEq

structure RegState where
  registry : List (Str × RegEntry)
  startCommand : Option Nat
  exitCommand : Option Nat
deriving DecidableEq

inductive RegErr where
  | dupStart
  | dupExit
deriving DecidableEq

/-- The `for index, alias in enumerate(aliases)` loop of `_register`
(cli_command.py lines 396-405): each name maps to its own descriptor, the
first one being the primary (`is_alias = index > 0`). -/
def registerLoop (funcId : Nat) : List Str → Nat → List (Str × RegEntry) →
    List (Str × RegEntry)
  | [], _, reg => reg
  | a :: rest, idx, reg =>
    registerLoop funcId rest (idx + 1)
      (dictInsert reg a { funcId := funcId, name := a, isAlias := idx > 0 })

/-- `_register(func, name, ..., atstart, atexit, ...)` (cli_command.py lines
375-405).  A second `atstart` or `atexit` registration raises
`RuntimeError` before anything is assigned. -/
def registerCmd (st : RegState) (funcId : Nat) (name : Option Str)
    (funcName : Str) (aliases : List Str) (atstart atexitFlag : Bool) :
    Except RegErr Unit × RegState :=
  if atstart then
    match st.startCommand with
    | some _ => (.error .dupStart, st)
    | none => (.ok (), { st with startCommand := some funcId })
  else if atexitFlag then
    match st.exitCommand with
    | some _ => (.error .dupExit, st)
    | none => (.ok (), { st with exitCommand := some funcId })
  else
    let commandName := name.getD funcName
    let allNames := if aliases = [] then [commandName] else commandName :: aliases
    (.ok (), { st with registry := registerLoop funcId allNames 0 st.registry })

/-! ## The builtin `fg` command (cliche builtin_commands.py, lines 203-227)

`fg(job=None)`: a falsy argument (`None` or `0`) selects the most recently
created job, `sorted(JOBS.keys())[-1]`; an empty table turns the resulting
`IndexError` into "No running jobs found"; a truthy id absent from the
table raises "Could not find a running job"; otherwise the table entry is
foregrounded.  The rendering of the result is a collaborator. -/

inductive FgErr where
  | noJobs
  | unknownJob (z : Int)
deriving DecidableEq

/-- The job-selection part of `fg`. -/
def fgPick (jobs : Jobs) (arg : Option Int) : Except FgErr Nat :=
  if arg.getD 0 = 0 then
    match (jobs.map fun e => e.1).max? with
    | none => .error .noJobs
    | some pid => .ok pid
  else if jobs.any fun e => (e.1 : Int) = arg.getD 0 then .ok (arg.getD 0).toNat
  else .error (.unknownJob (arg.getD 0))

/-- The whole `fg` body: pick a job, look it up, foreground it.  The lookup
cannot miss after a successful pick (the amended claim C8 proves the cases);
a miss would be Python's `KeyError`, represented by `noJobs` here. -/
def fg (jobs : Jobs) (arg : Option Int) : Except FgErr (FgOut × Jobs) :=
  match fgPick jobs arg with
  | .error e => .error e
  | .ok pid =>
    match dictFind jobs pid with
    | some th => .ok (foregroundDispatch jobs th)
    | none => .error .noJobs

/-! ## Simple-command execution (shell.py lines 139-232)

Argument parsing (`argparse`), value validation and result rendering are
collaborators: a command's parser either produces a namespace, raises
`SystemExit(code)`, or lets a `ReclineTypeError` escape, and the command
body is a state transformer on the job table whose outcome is a returned
value or one of the exception classes `run_one_command` distinguishes.
Values are abstracted to integers, `None` to `Option.none`. -/

structure PNamespace where
  background : Bool
  args : List Str
deriving DecidableEq

inductive ParseOutcome where
  | ok (ns : PNamespace)
  | sysExit (c : Int)
  | typeErr
deriving DecidableEq

inductive FuncOutcome where
  | ret (v : Option Int)
  | raiseType
  | raiseCmd
  | raiseFault
  | raiseSysExit (c : Int)
  | raiseBackgrounded (pid : Nat)
  | raiseCancelled (pid : Nat)
deriving DecidableEq

structure Command where
  hasFormatter : Bool
  isAsync : Bool
  parse : List Str → ParseOutcome
  func : List Str → Jobs → FuncOutcome × Jobs

inductive RunExc where
  | backgrounded (pid : Nat)
  | cancelled (pid : Nat)
  | typeErr
  | cmdErr
  | fault
  | sysExit (c : Int)
deriving DecidableEq

/-- `_run_command(command, cmd_args)` (shell.py lines 212-232).  For an
async command a job is spawned and started; with `-background` set the
`CommandBackgrounded` signal carries its pid.  Without it, line 225 reads
`command.is_background`, an attribute no `CLICommand` in this snapshot ever
defines, so the read raises `AttributeError` (an uncategorised fault) and
the `foreground()` call on line 227 is unreachable.  A sync command runs
the wrapped function; `None` results become 0 (lines 230-231). -/
def runCommand (cmd : Command) (cmdArgs : List Str) (sup : SupState) :
    Except RunExc Int × SupState :=
  match cmd.parse cmdArgs with
  | .sysExit c => (.error (.sysExit c), sup)
  | .typeErr => (.error .typeErr, sup)
  | .ok ns =>
    if cmd.isAsync then
      let p := spawnJob sup
      if ns.background then (.error (.backgrounded p.1.pid), p.2)
      else (.error .fault, p.2)
    else
      match cmd.func ns.args sup.jobs with
      | (.ret v, jobs2) => (.ok (v.getD 0), { sup with jobs := jobs2 })
      | (.raiseType, jobs2) => (.error .typeErr, { sup with jobs := jobs2 })
      | (.raiseCmd, jobs2) => (.error .cmdErr, { sup with jobs := jobs2 })
      | (.raiseFault, jobs2) => (.error .fault, { sup with jobs := jobs2 })
      | (.raiseSysExit c, jobs2) => (.error (.sysExit c), { sup with jobs := jobs2 })
      | (.raiseBackgrounded p, jobs2) =>
        (.error (.backgrounded p), { sup with jobs := jobs2 })
      | (.raiseCancelled p, jobs2) =>
        (.error (.cancelled p), { sup with jobs := jobs2 })

/-- `builtin_commands.EXIT_COMMAND_CODE`. -/
def EXIT_COMMAND_CODE : Int := 222

/-- The result of `run_one_command`: an exit code, or a propagated
`SystemExit` that terminates the application (shell.py lines 172-174). -/
inductive RunResult where
  | code (c : Int)
  | exitApp (c : Int)
deriving DecidableEq

structure ShellState where
  registry : List (Str × Command)
  sup : SupState

/-- Lines 151-153 of shell.py: strip the first occurrence of the resolved
name from the line, tokenise the remainder, drop empty tokens, and turn a
final `?` into `-help` unless the command itself is named `?`. -/
def prepArgs (input name : Str) : List Str :=
  let toks := (pyLex (replaceFirst name input)).filter fun t => t ≠ []
  match toks.getLast? with
  | some lastTok =>
    if lastTok = pystr "?" ∧ name ≠ pystr "?" then
      toks.dropLast ++ [pystr "-help"]
    else toks
  | none => toks

/-- Name resolution as `run_one_command` performs it (lines 144-150):
`get_command_name` with its default `exact=True` against the registry's
keys, then the `command_name not in COMMAND_REGISTRY` check. -/
def resolveCmd (st : ShellState) (input : Str) : Option (Str × Command) :=
  (get_command_name input (st.registry.map fun e => e.1) true).bind fun n =>
    (dictFind st.registry n).map fun c => (n, c)

/-- The `try`/`except` cascade of `run_one_command` (lines 154-180): a
formatter turns any completed run into exit code 0; `CommandBackgrounded`
prints and returns 0; `CommandCancelled` falls through to the final
`return 1`, as do validation errors, command errors and unexpected faults;
`SystemExit` re-raises for the exit command's code and otherwise returns the
carried code. -/
def dispatchRun (cmd : Command) (st : ShellState)
    (r : Except RunExc Int × SupState) : RunResult × ShellState :=
  let st2 := { st with sup := r.2 }
  match r.1 with
  | .ok v => if cmd.hasFormatter then (.code 0, st2) else (.code v, st2)
  | .error (.backgrounded _) => (.code 0, st2)
  | .error (.cancelled _) => (.code 1, st2)
  | .error .typeErr => (.code 1, st2)
  | .error .cmdErr => (.code 1, st2)
  | .error .fault => (.code 1, st2)
  | .error (.sysExit c) =>
    if c = EXIT_COMMAND_CODE then (.exitApp c, st2) else (.code c, st2)

/-- `run_one_command(current_input)` (shell.py lines 139-180). -/
def run_one_command (st : ShellState) (input : Str) : RunResult × ShellState :=
  match resolveCmd st input with
  | none => (.code 1, st)
  | some (name, cmd) =>
    dispatchRun cmd st (runCommand cmd (prepArgs input name) st.sup)

/-! ## Claim C1: the resolver loop -/

theorem gcnLoop_raLoop (pieces options : List Str) :
    ∀ i, (match gcnLoop pieces options i with
          | some (c, p) => if c = pyStrip p then some c else none
          | none => none) = raLoop pieces options i := by
  intro i
  induction i with
  | zero => rfl
  | succ i ih =>
    simp only [gcnLoop, raLoop]
    cases hp : options.filter fun x =>
        (List.intercalate [' '] (pieces.take (i + 1))).isPrefixOf x with
    | nil => exact ih
    | cons p1 prest =>
      cases prest with
      | nil => rfl
      | cons p2 prest2 =>
        cases hs : (p1 :: p2 :: prest2).filter (survives pieces) with
        | nil => exact ih
        | cons s1 srest =>
          cases srest with
          | nil => rfl
          | cons s2 srest2 => exact ih

/-- Claim C1 is false as stated: with registered names "a b x" and "a c" and
input "a b", the prefix "a b" (both words) matches exactly "a b x", which
does not equal the candidate, and the code then gives up (`break` followed
by the final equality check), returning absent -- whereas the claimed loop
continues to the one-word prefix "a", where the word-wise comparison leaves
only "a b x", and returns it. -/
theorem claim_C1_counterexample :
    get_command_name (pystr "a b") [pystr "a b x", pystr "a c"] false = none ∧
    resolveSpec (pystr "a b") [pystr "a b x", pystr "a c"] false =
      some (pystr "a b x") := by
  exact ⟨by decide, by decide⟩

/-- Claim C1 as amended: `get_command_name` follows the section 4.2 loop
except that a unique prefix match always ends the search -- the candidate
prefix is returned when the matching name equals it after stripping
surrounding whitespace, and resolution fails otherwise, without retrying
shorter prefixes. -/
theorem claim_C1_resolver_amended (text : Str) (names : List Str) (ex : Bool) :
    get_command_name text names ex = resolveAmended text names ex := by
  unfold get_command_name resolveAmended
  by_cases h : ex ∧ text ∈ names
  · rw [if_pos h, if_pos h]
  · rw [if_neg h, if_neg h]
    exact gcnLoop_raLoop (splitChar ' ' text) names (splitChar ' ' text).length

/-! ## Claim C2: `;` sequences -/

/-- Claim C2: a line containing `;` is split on every occurrence; every
segment is evaluated unconditionally -- the final state is the composition
of all segment effects with no exit code consulted -- and the line's exit
code is the final segment's. -/
theorem claim_C2_semicolon_sequence {σ : Type _} (f : Str → σ → Int × σ)
    (s : Str) (st : σ) (h : hasChar ';' s = true) :
    execute f s st = runSeq (execute f) (splitChar ';' s) (0, st) ∧
    (∀ seg ∈ splitChar ';' s, hasChar ';' seg = false) ∧
    (execute f s st).2 =
      (splitChar ';' s).foldl (fun st2 seg => (execute f seg st2).2) st ∧
    (execute f s st).1 =
      (execute f ((splitChar ';' s).getLastD [])
        ((splitChar ';' s).dropLast.foldl
          (fun st2 seg => (execute f seg st2).2) st)).1 := by
  have key : ∀ seg ∈ splitChar ';' s, ∀ st2 : σ,
      executeF f 2 seg st2 = execute f seg st2 := by
    intro seg hseg st2
    have g1 : hasChar ';' seg = false := splitChar_not_hasChar ';' s seg hseg
    exact (executeF_fuel2 f seg g1 1 st2).symm
  have main : execute f s st = runSeq (execute f) (splitChar ';' s) (0, st) := by
    have step : execute f s st = runSeq (executeF f 2) (splitChar ';' s) (0, st) := by
      show executeF f (2 + 1) s st = _
      simp only [executeF, h, if_true]
    rw [step]
    exact runSeq_congr _ key _
  refine ⟨main, splitChar_not_hasChar ';' s, ?_, ?_⟩
  · rw [main]
    exact runSeq_snd (execute f) (splitChar ';' s) (0, st)
  · rw [main]
    exact runSeq_getLast (execute f) (splitChar ';' s) (splitChar_ne_nil ';' s) (0, st)

/-- A concrete runner recording which segments were executed: exit code 2
for the segment "a", 0 otherwise, appending each executed segment to the
trace.  Used to witness claim C2. -/
def traceRun : Str → List Str → Int × List Str :=
  fun seg st => (if seg = pystr "a" then 2 else 0, st ++ [seg])

theorem claim_C2_witness :
    hasChar ';' (pystr "a;b") = true ∧
    (execute traceRun (pystr "a;b") [] =
        runSeq (execute traceRun) (splitChar ';' (pystr "a;b")) (0, []) ∧
      (∀ seg ∈ splitChar ';' (pystr "a;b"), hasChar ';' seg = false) ∧
      (execute traceRun (pystr "a;b") []).2 =
        (splitChar ';' (pystr "a;b")).foldl
          (fun st2 seg => (execute traceRun seg st2).2) [] ∧
      (execute traceRun (pystr "a;b") []).1 =
        (execute traceRun ((splitChar ';' (pystr "a;b")).getLastD [])
          ((splitChar ';' (pystr "a;b")).dropLast.foldl
            (fun st2 seg => (execute traceRun seg st2).2) [])).1) :=
  ⟨by decide, claim_C2_semicolon_sequence traceRun (pystr "a;b") [] (by decide)⟩

/-! ## Claim C3: `&&` and `||` chains -/

/-- A runner whose segment "a" yields the negative exit code -1, a value a
command body can return through `run_one_command`; every executed segment
is appended to the trace. -/
def negOracle : Str → List Str → Int × List Str :=
  fun seg st => (if seg = pystr "a" then -1 else 0, st ++ [seg])

/-- Claim C3 is false as stated: the `&&` loop stops only on a result
strictly greater than zero (`if result > 0: break`), not on any nonzero
result.  In "a&&b" with "a" exiting -1, the code still runs "b" -- the
trace records both segments -- although "a"'s exit code is nonzero. -/
theorem claim_C3_counterexample :
    execute negOracle (pystr "a&&b") [] = (0, [pystr "a", pystr "b"]) ∧
    (negOracle (pystr "a") []).1 ≠ 0 := by
  exact ⟨by decide, by decide⟩

/-- Claim C3 as amended: with no `;`, a line containing `&&` is evaluated
segment by segment, stopping at the first exit code greater than zero (a
nonpositive code lets evaluation continue); with `||` and no `&&`, it
stops at the first exit code equal to zero, exactly as claimed. -/
theorem claim_C3_and_or_amended {σ : Type _} (f : Str → σ → Int × σ)
    (s : Str) (st : σ) :
    (hasChar ';' s = false → has2 '&' '&' s = true →
      execute f s st = runAnd (execute f) (splitStr2 '&' '&' s) (0, st)) ∧
    (hasChar ';' s = false → has2 '&' '&' s = false → has2 '|' '|' s = true →
      execute f s st = runOr (execute f) (splitStr2 '|' '|' s) (0, st)) ∧
    (∀ seg rest (acc : Int × σ),
      runAnd (execute f) (seg :: rest) acc =
        if 0 < (execute f seg acc.2).1 then execute f seg acc.2
        else runAnd (execute f) rest (execute f seg acc.2)) ∧
    (∀ seg rest (acc : Int × σ),
      runOr (execute f) (seg :: rest) acc =
        if (execute f seg acc.2).1 = 0 then execute f seg acc.2
        else runOr (execute f) rest (execute f seg acc.2)) := by
  refine ⟨?_, ?_, ?_, ?_⟩
  · intro h1 h2
    have key : ∀ seg ∈ splitStr2 '&' '&' s, ∀ st2 : σ,
        executeF f 2 seg st2 = execute f seg st2 := by
      intro seg hseg st2
      have hinf : seg <:+: s := splitStr2_seg_sub '&' '&' s seg hseg
      have g1 : hasChar ';' seg = false := hasChar_false_of_sub hinf h1
      have g2 : has2 '&' '&' seg = false := splitStr2_not_has2 '&' '&' s seg hseg
      rw [show (2 : Nat) = 1 + 1 from rfl, executeF_fuel1 f seg g1 g2 1 st2]
      exact (executeF_fuel1 f seg g1 g2 2 st2).symm
    have step : execute f s st = runAnd (executeF f 2) (splitStr2 '&' '&' s) (0, st) := by
      show executeF f (2 + 1) s st = _
      simp only [executeF, h1, h2, Bool.false_eq_true, if_false, if_true]
    rw [step]
    exact runAnd_congr _ key _
  · intro h1 h2 h3
    have key : ∀ seg ∈ splitStr2 '|' '|' s, ∀ st2 : σ,
        executeF f 2 seg st2 = execute f seg st2 := by
      intro seg hseg st2
      have hinf : seg <:+: s := splitStr2_seg_sub '|' '|' s seg hseg
      have g1 : hasChar ';' seg = false := hasChar_false_of_sub hinf h1
      have g2 : has2 '&' '&' seg = false := has2_false_of_sub hinf h2
      have g3 : has2 '|' '|' seg = false := splitStr2_not_has2 '|' '|' s seg hseg
      rw [executeF_no_ops f seg g1 g2 g3 2 st2]
      exact (executeF_no_ops f seg g1 g2 g3 3 st2).symm
    have step : execute f s st = runOr (executeF f 2) (splitStr2 '|' '|' s) (0, st) := by
      show executeF f (2 + 1) s st = _
      simp only [executeF, h1, h2, h3, Bool.false_eq_true, if_false, if_true]
    rw [step]
    exact runOr_congr _ key _
  · intro seg rest acc
    obtain ⟨r, st2⟩ := acc
    rfl
  · intro seg rest acc
    obtain ⟨r, st2⟩ := acc
    rfl

theorem claim_C3_witness :
    (execute negOracle (pystr "a&&b") [] =
      runAnd (execute negOracle) (splitStr2 '&' '&' (pystr "a&&b")) (0, [])) ∧
    (execute negOracle (pystr "a||b") [] =
      runOr (execute negOracle) (splitStr2 '|' '|' (pystr "a||b")) (0, [])) :=
  ⟨(claim_C3_and_or_amended negOracle (pystr "a&&b") []).1 (by decide) (by decide),
   (claim_C3_and_or_amended negOracle (pystr "a||b") []).2.1
     (by decide) (by decide) (by decide)⟩

/-! ## Claim C5: the four foreground outcomes -/

/-- Claim C5: after the foreground wait, the dispatch has exactly the four
outcomes the spec lists.  (1) With the job alive in the table, not killed,
still waited on and fault-free, the captured result is returned and the job
leaves the table.  (2) A job stopped during the wait (the interrupt handler
calls `stop()` with the default delete) raises Cancelled with the job
already gone from the table.  (3) A job detached mid-wait raises
Backgrounded and stays registered.  (4) A captured fault is re-raised and
the job leaves the table. -/
theorem claim_C5_foreground_outcomes (jobs : Jobs) (j : Job) :
    (j.killed = false → j.wait = true → j.exception = none →
      dictFind jobs j.pid = some j →
      foregroundDispatch jobs j = (.completed j.result, dictErase jobs j.pid) ∧
        dictMem (dictErase jobs j.pid) j.pid = false) ∧
    (∀ j2 jobs2, stopJob jobs j false = (j2, jobs2) →
      foregroundDispatch jobs2 j2 = (.cancelled j.pid, jobs2) ∧
        dictMem jobs2 j.pid = false) ∧
    (j.killed = false → dictMem jobs j.pid = true →
      foregroundDispatch jobs (backgroundJob j) = (.backgrounded j.pid, jobs) ∧
        dictMem jobs j.pid = true) ∧
    (∀ e, j.killed = false → j.wait = true → j.exception = some e →
      foregroundDispatch jobs j = (.failed e, dictErase jobs j.pid) ∧
        dictMem (dictErase jobs j.pid) j.pid = false) := by
  refine ⟨?_, ?_, ?_, ?_⟩
  · intro hk hw he hf
    refine ⟨?_, dictMem_erase_self jobs j.pid⟩
    simp [foregroundDispatch, hk, hw, he, hf]
  · intro j2 jobs2 h
    have h' : ({ j with killed := true },
        dictErase (jobs.map fun e =>
          if e.1 = j.pid then (j.pid, { j with killed := true }) else e) j.pid) =
        (j2, jobs2) := h
    injection h' with h1 h2
    subst h1
    subst h2
    exact ⟨by simp [foregroundDispatch], dictMem_erase_self _ j.pid⟩
  · intro hk hm
    exact ⟨by simp [foregroundDispatch, backgroundJob, hk], hm⟩
  · intro e hk hw he
    refine ⟨?_, dictMem_erase_self jobs j.pid⟩
    simp [foregroundDispatch, hk, hw, he]

/-- A completed job holding result 5, and a failed job holding a fault. -/
def jobDone : Job :=
  { pid := 1, result := some 5, exception := none,
    wait := true, killed := false, alive := false }

def jobFailed : Job :=
  { pid := 2, result := none, exception := some 7,
    wait := true, killed := false, alive := false }

theorem claim_C5_witness :
    (foregroundDispatch [(1, jobDone)] jobDone =
        (.completed (some 5), []) ∧ dictMem ([] : Jobs) 1 = false) ∧
    (foregroundDispatch [] { jobDone with killed := true } =
        (.cancelled 1, []) ∧ dictMem ([] : Jobs) 1 = false) ∧
    (foregroundDispatch [(1, jobDone)] (backgroundJob jobDone) =
        (.backgrounded 1, [(1, jobDone)]) ∧ dictMem [(1, jobDone)] 1 = true) ∧
    (foregroundDispatch [(2, jobFailed)] jobFailed =
        (.failed 7, []) ∧ dictMem ([] : Jobs) 2 = false) := by
  refine ⟨?_, ?_, ?_, ?_⟩
  · have h := (claim_C5_foreground_outcomes [(1, jobDone)] jobDone).1
      rfl rfl rfl (by decide)
    simpa using h
  · have h := (claim_C5_foreground_outcomes [(1, jobDone)] jobDone).2.1
      { jobDone with killed := true } [] (by decide)
    simpa using h
  · have h := (claim_C5_foreground_outcomes [(1, jobDone)] jobDone).2.2.1
      rfl (by decide)
    simpa using h
  · have h := (claim_C5_foreground_outcomes [(2, jobFailed)] jobFailed).2.2.2
      7 rfl rfl rfl
    simpa using h

/-! ## Claim C6: job identifiers -/

/-- Claim C6: from process start, `n` spawns allocate exactly the ids
1, 2, ..., n in order -- strictly increasing, distinct, starting at 1 --
and every spawn registers the new job in the table under its id. -/
theorem claim_C6_job_ids (n : Nat) :
    ((spawnSeq n initSup).1.map Job.pid = List.range' 1 n) ∧
    ((spawnSeq n initSup).1.map Job.pid).Pairwise (· < ·) ∧
    ((spawnSeq n initSup).1.map Job.pid).Nodup ∧
    (∀ st : SupState,
      dictFind (spawnJob st).2.jobs (spawnJob st).1.pid = some (spawnJob st).1) := by
  have hp : (spawnSeq n initSup).1.map Job.pid = List.range' 1 n :=
    spawnSeq_pids n initSup
  refine ⟨hp, ?_, ?_, ?_⟩
  · rw [hp]; exact List.pairwise_lt_range' 1 n
  · rw [hp]; exact List.nodup_range' 1 n
  · intro st
    exact dictFind_insert_self st.jobs st.nextPid (newJob st.nextPid)

/-! ## Claim C7: singleton startup and exit slots -/

/-- Claim C7: registering a second `atstart` (or `atexit`) command fails
with the Duplicate-Singleton error, and the failed second attempt leaves
the slot exactly as the first registration set it. -/
theorem claim_C7_singleton_slots (st : RegState) (f1 f2 : Nat)
    (n1 n2 : Option Str) (fn1 fn2 : Str) (a1 a2 : List Str) :
    (st.startCommand = none →
      registerCmd st f1 n1 fn1 a1 true false =
        (.ok (), { st with startCommand := some f1 }) ∧
      registerCmd { st with startCommand := some f1 } f2 n2 fn2 a2 true false =
        (.error .dupStart, { st with startCommand := some f1 })) ∧
    (st.exitCommand = none →
      registerCmd st f1 n1 fn1 a1 false true =
        (.ok (), { st with exitCommand := some f1 }) ∧
      registerCmd { st with exitCommand := some f1 } f2 n2 fn2 a2 false true =
        (.error .dupExit, { st with exitCommand := some f1 })) := by
  constructor
  · intro h
    constructor
    · simp [registerCmd, h]
    · simp [registerCmd]
  · intro h
    constructor
    · simp [registerCmd, h]
    · simp [registerCmd]

theorem claim_C7_witness :
    registerCmd ⟨[], none, none⟩ 10 none (pystr "boot") [] true false =
      (.ok (), ⟨[], some 10, none⟩) ∧
    registerCmd ⟨[], some 10, none⟩ 11 none (pystr "boot2") [] true false =
      (.error .dupStart, ⟨[], some 10, none⟩) ∧
    registerCmd ⟨[], none, none⟩ 20 none (pystr "bye") [] false true =
      (.ok (), ⟨[], none, some 20⟩) ∧
    registerCmd ⟨[], none, some 20⟩ 21 none (pystr "bye2") [] false true =
      (.error .dupExit, ⟨[], none, some 20⟩) := by
  have h1 := (claim_C7_singleton_slots ⟨[], none, none⟩ 10 11
    none none (pystr "boot") (pystr "boot2") [] []).1 rfl
  have h2 := (claim_C7_singleton_slots ⟨[], none, none⟩ 20 21
    none none (pystr "bye") (pystr "bye2") [] []).2 rfl
  exact ⟨h1.1, h1.2, h2.1, h2.2⟩

/-! ## Claim C8: the builtin `fg` -/

theorem mem_keys_dictMem {β : Type _} (m : List (Nat × β)) (k : Nat)
    (h : k ∈ m.map fun e => e.1) : dictMem m k = true := by
  induction m with
  | nil => simp at h
  | cons e rest ih =>
    simp only [List.map_cons, List.mem_cons] at h
    by_cases he : e.1 = k
    · simp [dictMem, dictFind, List.find?_cons, he]
    · rcases h with h | h
      · exact absurd h.symm he
      · have := ih h
        simp only [dictMem, dictFind, List.find?_cons, decide_eq_false he] at this ⊢
        exact this

theorem any_key_dictMem {β : Type _} (m : List (Nat × β)) (z : Int)
    (h : (m.any fun e => decide ((e.1 : Int) = z)) = true) :
    dictMem m z.toNat = true := by
  rw [List.any_eq_true] at h
  obtain ⟨e, hm, he⟩ := h
  rw [decide_eq_true_eq] at he
  have hz : z.toNat = e.1 := by rw [← he]; exact Int.toNat_natCast e.1
  rw [hz]
  exact mem_keys_dictMem m e.1 (List.mem_map.mpr ⟨e, hm, rfl⟩)

/-- Claim C8 is false as stated: the id 0 is never in the table (ids start
at 1), yet `fg -job 0` against a table holding job 1 does not fail -- the
Python check `if not job:` treats 0 as "no id given" and selects the
largest id instead. -/
theorem claim_C8_counterexample :
    fgPick [(1, newJob 1)] (some 0) = .ok 1 ∧
    (([(1, newJob 1)] : Jobs).any fun e => (e.1 : Int) = (0 : Int)) = false := by
  exact ⟨rfl, by decide⟩

/-- Claim C8 as amended: an omitted id and the id 0 are both falsy and
select the most recently created job still present (the largest id),
failing with "no running jobs" only when the table is empty; a given
nonzero id foregrounds that job when present and fails when unknown. -/
theorem claim_C8_fg_amended (jobs : Jobs) (arg : Option Int) :
    (∀ z : Int, arg = some z → z ≠ 0 →
      ((jobs.any fun e => (e.1 : Int) = z) = true →
        ∃ th, dictFind jobs z.toNat = some th ∧
          fg jobs arg = .ok (foregroundDispatch jobs th)) ∧
      ((jobs.any fun e => (e.1 : Int) = z) = false →
        fg jobs arg = .error (.unknownJob z))) ∧
    (arg.getD 0 = 0 →
      (jobs = [] → fg jobs arg = .error .noJobs) ∧
      (∀ pid, (jobs.map fun e => e.1).max? = some pid →
        ∃ th, dictFind jobs pid = some th ∧
          fg jobs arg = .ok (foregroundDispatch jobs th))) := by
  constructor
  · rintro z rfl hz
    constructor
    · intro hm
      have hmem : dictMem jobs z.toNat = true := any_key_dictMem jobs z hm
      obtain ⟨th, hth⟩ := Option.isSome_iff_exists.mp hmem
      refine ⟨th, hth, ?_⟩
      simp only [fg, fgPick, Option.getD_some, if_neg hz, hm, if_true, hth]
    · intro hm
      simp only [fg, fgPick, Option.getD_some, if_neg hz, hm,
        Bool.false_eq_true, if_false]
  · intro h0
    constructor
    · rintro rfl
      simp [fg, fgPick, h0]
    · intro pid hmax
      have hpid : pid ∈ jobs.map fun e => e.1 := List.max?_mem max_choice hmax
      have hmem : dictMem jobs pid = true := mem_keys_dictMem jobs pid hpid
      obtain ⟨th, hth⟩ := Option.isSome_iff_exists.mp hmem
      refine ⟨th, hth, ?_⟩
      simp only [fg, fgPick, if_pos h0, hmax, hth]

theorem claim_C8_witness :
    (∃ th, dictFind [(1, jobDone)] (Int.toNat 1) = some th ∧
      fg [(1, jobDone)] (some 1) =
        .ok (foregroundDispatch [(1, jobDone)] th)) ∧
    fg [(1, jobDone)] (some 3) = .error (.unknownJob 3) ∧
    fg ([] : Jobs) none = .error .noJobs ∧
    (∃ th, dictFind [(1, jobDone)] 1 = some th ∧
      fg [(1, jobDone)] none = .ok (foregroundDispatch [(1, jobDone)] th)) := by
  refine ⟨?_, ?_, ?_, ?_⟩
  · exact ((claim_C8_fg_amended [(1, jobDone)] (some 1)).1 1 rfl
      (by decide)).1 (by decide)
  · exact ((claim_C8_fg_amended [(1, jobDone)] (some 3)).1 3 rfl
      (by decide)).2 (by decide)
  · exact ((claim_C8_fg_amended [] none).2 rfl).1 rfl
  · exact ((claim_C8_fg_amended [(1, jobDone)] none).2 rfl).2 1 (by decide)

/-! ## Claim C4: `run_one_command` exit codes -/

/-- Claim C4: `run_one_command` returns 0 on success (a formatter-rendered
result, or a body returning nothing), 1 when no command matched or for any
otherwise-uncategorised failure (an unexpected fault, a validation error, a
command error), and otherwise the command's own returned integer code. -/
theorem claim_C4_exit_codes (st : ShellState) (input : Str) :
    (resolveCmd st input = none → run_one_command st input = (.code 1, st)) ∧
    (∀ name cmd ns, resolveCmd st input = some (name, cmd) →
      cmd.isAsync = false →
      cmd.parse (prepArgs input name) = .ok ns →
      (∀ jobs2, cmd.func ns.args st.sup.jobs = (.ret none, jobs2) →
        run_one_command st input =
          (.code 0, { st with sup := { st.sup with jobs := jobs2 } })) ∧
      (∀ v jobs2, cmd.func ns.args st.sup.jobs = (.ret (some v), jobs2) →
        cmd.hasFormatter = false →
        run_one_command st input =
          (.code v, { st with sup := { st.sup with jobs := jobs2 } })) ∧
      (∀ v jobs2, cmd.func ns.args st.sup.jobs = (.ret v, jobs2) →
        cmd.hasFormatter = true →
        run_one_command st input =
          (.code 0, { st with sup := { st.sup with jobs := jobs2 } })) ∧
      (∀ jobs2, cmd.func ns.args st.sup.jobs = (.raiseFault, jobs2) →
        run_one_command st input =
          (.code 1, { st with sup := { st.sup with jobs := jobs2 } })) ∧
      (∀ jobs2, cmd.func ns.args st.sup.jobs = (.raiseType, jobs2) →
        run_one_command st input =
          (.code 1, { st with sup := { st.sup with jobs := jobs2 } })) ∧
      (∀ jobs2, cmd.func ns.args st.sup.jobs = (.raiseCmd, jobs2) →
        run_one_command st input =
          (.code 1, { st with sup := { st.sup with jobs := jobs2 } }))) := by
  constructor
  · intro h
    simp [run_one_command, h]
  · intro name cmd ns hres hasync hparse
    refine ⟨?_, ?_, ?_, ?_, ?_, ?_⟩
    · intro jobs2 hfunc
      simp [run_one_command, hres, runCommand, hparse, hasync, hfunc, dispatchRun]
    · intro v jobs2 hfunc hfmt
      simp [run_one_command, hres, runCommand, hparse, hasync, hfunc,
        dispatchRun, hfmt]
    · intro v jobs2 hfunc hfmt
      simp [run_one_command, hres, runCommand, hparse, hasync, hfunc,
        dispatchRun, hfmt]
    · intro jobs2 hfunc
      simp [run_one_command, hres, runCommand, hparse, hasync, hfunc, dispatchRun]
    · intro jobs2 hfunc
      simp [run_one_command, hres, runCommand, hparse, hasync, hfunc, dispatchRun]
    · intro jobs2 hfunc
      simp [run_one_command, hres, runCommand, hparse, hasync, hfunc, dispatchRun]

/-- A registered sync command returning the integer 7, with no output
formatter, accepting any arguments. -/
def cmdSeven : Command :=
  { hasFormatter := false, isAsync := false,
    parse := fun args => .ok { background := false, args := args },
    func := fun _ jobs => (.ret (some 7), jobs) }

/-- A registered sync command whose body raises an unexpected fault. -/
def cmdBoom : Command :=
  { hasFormatter := false, isAsync := false,
    parse := fun args => .ok { background := false, args := args },
    func := fun _ jobs => (.raiseFault, jobs) }

/-- A shell with two commands, "show" and "boom", and an empty job table. -/
def shellSt : ShellState :=
  { registry := [(pystr "show", cmdSeven), (pystr "boom", cmdBoom)],
    sup := initSup }

theorem claim_C4_witness :
    run_one_command shellSt (pystr "nope") = (.code 1, shellSt) ∧
    run_one_command shellSt (pystr "show") =
      (.code 7, { shellSt with sup := { shellSt.sup with jobs := [] } }) ∧
    run_one_command shellSt (pystr "boom") =
      (.code 1, { shellSt with sup := { shellSt.sup with jobs := [] } }) := by
  refine ⟨?_, ?_, ?_⟩
  · exact (claim_C4_exit_codes shellSt (pystr "nope")).1 rfl
  · exact ((claim_C4_exit_codes shellSt (pystr "show")).2 (pystr "show") cmdSeven
      { background := false, args := [] } rfl rfl rfl).2.1 7 [] rfl rfl
  · exact ((claim_C4_exit_codes shellSt (pystr "boom")).2 (pystr "boom") cmdBoom
      { background := false, args := [] } rfl rfl rfl).2.2.2.1 [] rfl

/-! ## Claim C9: unknown commands leave the state untouched -/

/-- Claim C9: input that resolves to no registered command exits with code
1 and leaves the command registry and the job table exactly as they were. -/
theorem claim_C9_unknown_frame (st : ShellState) (input : Str)
    (h : resolveCmd st input = none) :
    run_one_command st input = (.code 1, st) ∧
    (run_one_command st input).2.registry = st.registry ∧
    (run_one_command st input).2.sup.jobs = st.sup.jobs := by
  have hmain : run_one_command st input = (.code 1, st) := by
    simp [run_one_command, h]
  exact ⟨hmain, by rw [hmain], by rw [hmain]⟩

theorem claim_C9_witness :
    resolveCmd shellSt (pystr "bad command") = none ∧
    (run_one_command shellSt (pystr "bad command") = (.code 1, shellSt) ∧
      (run_one_command shellSt (pystr "bad command")).2.registry =
        shellSt.registry ∧
      (run_one_command shellSt (pystr "bad command")).2.sup.jobs =
        shellSt.sup.jobs) :=
  ⟨rfl, claim_C9_unknown_frame shellSt (pystr "bad command") rfl⟩

/-! ## Claim C10: a trailing `?` becomes `-help` -/

/-- Claim C10: when the resolved command is not itself named "?" and the
tokenised remainder of the line ends with the literal token "?", the last
token is replaced by "-help" before the arguments reach the parser, and the
command is run on the rewritten argument list. -/
theorem claim_C10_question_help (st : ShellState) (input name : Str)
    (cmd : Command) (toks : List Str)
    (hres : resolveCmd st input = some (name, cmd))
    (hname : name ≠ pystr "?")
    (htoks : toks = (pyLex (replaceFirst name input)).filter fun t => t ≠ [])
    (hlast : toks.getLast? = some (pystr "?")) :
    prepArgs input name = toks.dropLast ++ [pystr "-help"] ∧
    run_one_command st input =
      dispatchRun cmd st
        (runCommand cmd (toks.dropLast ++ [pystr "-help"]) st.sup) := by
  have hprep : prepArgs input name = toks.dropLast ++ [pystr "-help"] := by
    rw [prepArgs, ← htoks, hlast]
    simp [hname]
  refine ⟨hprep, ?_⟩
  simp only [run_one_command, hres, hprep]

theorem claim_C10_witness :
    resolveCmd shellSt (pystr "show x ?") = some (pystr "show", cmdSeven) ∧
    pystr "show" ≠ pystr "?" ∧
    ((pyLex (replaceFirst (pystr "show") (pystr "show x ?"))).filter
        fun t => t ≠ []).getLast? = some (pystr "?") ∧
    (prepArgs (pystr "show x ?") (pystr "show") =
        ((pyLex (replaceFirst (pystr "show") (pystr "show x ?"))).filter
          fun t => t ≠ []).dropLast ++ [pystr "-help"] ∧
      run_one_command shellSt (pystr "show x ?") =
        dispatchRun cmdSeven shellSt
          (runCommand cmdSeven
            (((pyLex (replaceFirst (pystr "show") (pystr "show x ?"))).filter
              fun t => t ≠ []).dropLast ++ [pystr "-help"]) shellSt.sup)) :=
  ⟨rfl, by decide, by decide,
   claim_C10_question_help shellSt (pystr "show x ?") (pystr "show") cmdSeven
     _ rfl (by decide) rfl (by decide)⟩

end Recline
